import Mathlib

/-!
Verification of the ticket-rule program (`src/main.rs`), a shallow embedding.

The program parses named rules (two inclusive `i64` ranges each), a personal
record and a batch of candidate records, then
  * sums the values of the batch that satisfy no rule (answer 1), and
  * solves for a bijection between field positions and rule names by
    sorted elimination and multiplies the personal record's values at the
    positions whose rule name starts with "departure" (answer 2).

Machine integers (`i64`) are modelled as `Int`; the `i64` overflow check of
`str::parse::<i64>` in the parsers is kept explicit.  Rust panics (index out
of bounds, `panic!("too big!")`, parse `unwrap`) are modelled by `Option`,
`none` meaning the program aborts.
-/

namespace AdvTickets

/-- A rule: a name and two inclusive integer ranges
(`struct Rule { name, range1, range2 }` in `main.rs`). -/
structure Rule where
  name : String
  range1 : Int × Int
  range2 : Int × Int
deriving Repr, DecidableEq

/-- `Rule::valid`: a field value is valid when it lies in `range1` or in
`range2` (`RangeInclusive::contains`). -/
def Rule.valid (r : Rule) (field : Int) : Bool :=
  (r.range1.1 ≤ field && field ≤ r.range1.2) ||
    (r.range2.1 ≤ field && field ≤ r.range2.2)

/-- The spec-side satisfaction predicate: the value lies in the first or in
the second inclusive range of the rule. -/
def Satisfies (r : Rule) (v : Int) : Prop :=
  v ∈ Set.Icc r.range1.1 r.range1.2 ∨ v ∈ Set.Icc r.range2.1 r.range2.2

instance (r : Rule) (v : Int) : Decidable (Satisfies r v) := by
  unfold Satisfies; infer_instance

theorem rule_valid_iff (r : Rule) (v : Int) : r.valid v = true ↔ Satisfies r v := by
  simp [Rule.valid, Satisfies, Set.mem_Icc, and_comm]

theorem rule_valid_eq_false (r : Rule) (v : Int) :
    r.valid v = false ↔ ¬ Satisfies r v := by
  rw [← rule_valid_iff]
  cases r.valid v <;> simp

/-- `find_invalid_fields`: the values of a record for which no rule is
satisfied, kept in record order (`iter().filter(...).collect()`). -/
def find_invalid_fields (passport : List Int) (rules : List Rule) : List Int :=
  passport.filter (fun field => rules.all (fun rule => !rule.valid field))

/-- `find_all_invalid_fields`: per-record invalid values over the batch,
dropping the empty per-record lists, flattened in batch order
(`map(...).filter(|f| !f.is_empty()).flatten()`). -/
def find_all_invalid_fields (passports : List (List Int)) (rules : List Rule) :
    List Int :=
  ((passports.map (fun passport => find_invalid_fields passport rules)).filter
    (fun invalid => !invalid.isEmpty)).flatten

/-- Answer 1 (`main`): the sum of all invalid field values of the batch. -/
def answer1 (passports : List (List Int)) (rules : List Rule) : Int :=
  (find_all_invalid_fields passports rules).sum

/-- `filter_invalid`: keep only the records whose `find_invalid_fields`
result is empty. -/
def filter_invalid (passports : List (List Int)) (rules : List Rule) :
    List (List Int) :=
  passports.filter (fun passport => (find_invalid_fields passport rules).isEmpty)

/-- Index the record at each position of the list in order; an
out-of-bounds index is a panic, modelled by `none`. -/
def indexAll (pass : List Int) : List (Nat × String) → Option (List Int)
  | [] => some []
  | pr :: rest =>
    match pass[pr.1]? with
    | none => none
    | some v => (indexAll pass rest).map (fun vs => v :: vs)

/-- Answer 2 (`main`): over a determined assignment of positions to rule
names, take the pairs whose name starts with `"departure"`, index the
personal record at their positions and multiply the values. -/
def part2 (my_passport : List Int) (determined : List (Nat × String)) :
    Option Int :=
  (indexAll my_passport
    (determined.filter (fun pr => pr.2.startsWith "departure"))).map List.prod

/-- C4 -- `find_invalid_fields` returns exactly the values of the record that
satisfy no rule (satisfaction being membership in the rule's first or second
inclusive range), as a subsequence of the record, hence in record order. -/
theorem find_invalid_fields_spec (passport : List Int) (rules : List Rule) :
    find_invalid_fields passport rules =
        passport.filter (fun v => decide (∀ r ∈ rules, ¬ Satisfies r v)) ∧
      List.Sublist (find_invalid_fields passport rules) passport ∧
      ∀ v : Int, v ∈ find_invalid_fields passport rules ↔
        v ∈ passport ∧ ∀ r ∈ rules, ¬ Satisfies r v := by
  have hfun : ∀ v : Int,
      (rules.all (fun rule => !rule.valid v)) =
        decide (∀ r ∈ rules, ¬ Satisfies r v) := by
    intro v
    rw [Bool.eq_iff_iff]
    simp [List.all_eq_true, rule_valid_eq_false]
  refine ⟨?_, ?_, ?_⟩
  · unfold find_invalid_fields
    exact List.filter_congr (fun v _ => hfun v)
  · exact List.filter_sublist _
  · intro v
    simp [find_invalid_fields, List.mem_filter, hfun, List.all_eq_true,
      rule_valid_iff]

/-- C5 -- `filter_invalid` keeps a subsequence of the batch (so at most as
many records), and every kept record has no invalid fields: each of its
values satisfies some rule. -/
theorem filter_invalid_spec (passports : List (List Int)) (rules : List Rule) :
    List.Sublist (filter_invalid passports rules) passports ∧
      (filter_invalid passports rules).length ≤ passports.length ∧
      ∀ p ∈ filter_invalid passports rules,
        find_invalid_fields p rules = [] ∧
          ∀ v ∈ p, ∃ r ∈ rules, Satisfies r v := by
  refine ⟨List.filter_sublist _, (List.filter_sublist _).length_le, ?_⟩
  intro p hp
  have hmem := List.mem_filter.mp hp
  have hempty : find_invalid_fields p rules = [] := by
    simpa [List.isEmpty_iff] using hmem.2
  refine ⟨hempty, ?_⟩
  intro v hv
  by_contra hno
  push_neg at hno
  have : v ∈ find_invalid_fields p rules := by
    simp only [find_invalid_fields, List.mem_filter, List.all_eq_true]
    refine ⟨hv, fun r hr => ?_⟩
    rw [(rule_valid_eq_false r v).mpr (hno r hr)]
    rfl
  simp [hempty] at this

/-- C9 -- the non-empty filter inside `find_all_invalid_fields` is a no-op:
the result is the plain concatenation, in batch order, of the per-record
invalid values, and answer 1 consequently sums the invalid values once per
occurrence. -/
theorem find_all_invalid_fields_spec (passports : List (List Int))
    (rules : List Rule) :
    find_all_invalid_fields passports rules =
        (passports.map (fun p => find_invalid_fields p rules)).flatten ∧
      answer1 passports rules =
        (passports.map (fun p => (find_invalid_fields p rules).sum)).sum := by
  have hjoin : ∀ L : List (List Int),
      (L.filter (fun l => !l.isEmpty)).flatten = L.flatten := by
    intro L
    induction L with
    | nil => rfl
    | cons x xs ih =>
      by_cases hx : x.isEmpty
      · have : x = [] := by simpa [List.isEmpty_iff] using hx
        simp [List.filter_cons, hx, this, ih]
      · simp [List.filter_cons, hx, ih]
  have hflat : find_all_invalid_fields passports rules =
      (passports.map (fun p => find_invalid_fields p rules)).flatten := by
    unfold find_all_invalid_fields
    exact hjoin _
  refine ⟨hflat, ?_⟩
  unfold answer1
  rw [hflat]
  have hsum : ∀ L : List (List Int), L.flatten.sum = (L.map List.sum).sum := by
    intro L
    induction L with
    | nil => rfl
    | cons x xs ih => simp [List.sum_append, ih]
  rw [hsum, List.map_map]
  rfl

/-- C7 -- given a completed assignment whose positions are within the
personal record, answer 2 is the product of the record's values at the
positions whose rule name starts with `"departure"`; with no such name the
product is the empty product `1`. -/
theorem part2_spec (my_passport : List Int) (determined : List (Nat × String))
    (h : ∀ pr ∈ determined, pr.1 < my_passport.length) :
    part2 my_passport determined =
        some (((determined.filter (fun pr => pr.2.startsWith "departure")).map
          (fun pr => my_passport.getD pr.1 0)).prod) ∧
      ((∀ pr ∈ determined, ¬ pr.2.startsWith "departure") →
        part2 my_passport determined = some 1) := by
  have hidx : ∀ l : List (Nat × String),
      (∀ pr ∈ l, pr.1 < my_passport.length) →
        indexAll my_passport l =
          some (l.map (fun pr => my_passport.getD pr.1 0)) := by
    intro l hall
    induction l with
    | nil => rfl
    | cons x xs ih =>
      have hx : x.1 < my_passport.length := hall x (List.mem_cons_self x xs)
      have hxs : ∀ pr ∈ xs, pr.1 < my_passport.length := fun pr hpr =>
        hall pr (List.mem_cons_of_mem x hpr)
      have hget : my_passport[x.1]? = some my_passport[x.1] :=
        List.getElem?_eq_getElem hx
      have hD : my_passport.getD x.1 0 = my_passport[x.1] := by
        rw [List.getD_eq_getElem?_getD, hget]
        rfl
      simp only [indexAll, hget, ih hxs, List.map_cons, hD]
      rfl
  have hall : ∀ pr ∈ determined.filter (fun pr => pr.2.startsWith "departure"),
      pr.1 < my_passport.length := fun pr hpr =>
    h pr (List.mem_of_mem_filter hpr)
  constructor
  · simp [part2, hidx _ hall]
  · intro hnone
    have hfilt : determined.filter (fun pr => pr.2.startsWith "departure") = [] := by
      rw [List.filter_eq_nil_iff]
      intro pr hpr
      simpa using hnone pr hpr
    unfold part2
    rw [hfilt]
    rfl

/-! ## Position-candidate computation (`is_valid_in_position`,
`find_all_valid_positions`) -/

/-- `is_valid_in_position`: every record's value at `position` satisfies the
rule.  The `Iterator::all` short-circuits at the first failing record; the
index `passport[position]` panics when out of bounds, modelled by `none`. -/
def is_valid_in_position (rule : Rule) (position : Nat) :
    List (List Int) → Option Bool
  | [] => some true
  | passport :: rest =>
    match passport[position]? with
    | none => none
    | some v =>
      if rule.valid v then is_valid_in_position rule position rest
      else some false

/-- Inner loop of `find_all_valid_positions` for one rule: keep the probed
positions that qualify, each paired with the rule's name, in probing order. -/
def rule_positions (rule : Rule) (passports : List (List Int)) :
    List Nat → Option (List (Nat × String))
  | [] => some []
  | position :: rest =>
    match is_valid_in_position rule position passports with
    | none => none
    | some b =>
      (rule_positions rule passports rest).map
        (fun tail => if b then (position, rule.name) :: tail else tail)

/-- Outer loop of `find_all_valid_positions`: one candidate list per rule,
in rule order, probing every position `0..n-1`. -/
def find_all_valid_positions_aux (n : Nat) (passports : List (List Int)) :
    List Rule → Option (List (List (Nat × String)))
  | [] => some []
  | rule :: rest =>
    match rule_positions rule passports (List.range n) with
    | none => none
    | some ps =>
      (find_all_valid_positions_aux n passports rest).map
        (fun tail => ps :: tail)

/-- `find_all_valid_positions`: per-rule candidate `(position, name)` lists
over positions `0..rules.length-1`. -/
def find_all_valid_positions (rules : List Rule)
    (passports : List (List Int)) : Option (List (List (Nat × String))) :=
  find_all_valid_positions_aux rules.length passports rules

/-- The pure candidate list of one rule (what the probing computes when no
index is out of bounds). -/
def candidate_positions (rule : Rule) (passports : List (List Int))
    (n : Nat) : List (Nat × String) :=
  ((List.range n).filter
    (fun position =>
      passports.all (fun q => rule.valid (q.getD position 0)))).map
    (fun position => (position, rule.name))

theorem is_valid_in_position_eq (rule : Rule) (position : Nat)
    (passports : List (List Int))
    (h : ∀ q ∈ passports, position < q.length) :
    is_valid_in_position rule position passports =
      some (passports.all (fun q => rule.valid (q.getD position 0))) := by
  induction passports with
  | nil => rfl
  | cons q rest ih =>
    have hq : position < q.length := h q (List.mem_cons_self q rest)
    have hrest : ∀ r ∈ rest, position < r.length := fun r hr =>
      h r (List.mem_cons_of_mem q hr)
    have hget : q[position]? = some q[position] := List.getElem?_eq_getElem hq
    have hD : q.getD position 0 = q[position] := by
      rw [List.getD_eq_getElem?_getD, hget]
      rfl
    simp only [is_valid_in_position, hget, List.all_cons, hD]
    cases hv : rule.valid q[position] with
    | true => simp [ih hrest]
    | false => simp

theorem rule_positions_eq (rule : Rule) (passports : List (List Int))
    (l : List Nat) (h : ∀ pos ∈ l, ∀ q ∈ passports, pos < q.length) :
    rule_positions rule passports l =
      some ((l.filter
        (fun position =>
          passports.all (fun q => rule.valid (q.getD position 0)))).map
        (fun position => (position, rule.name))) := by
  induction l with
  | nil => rfl
  | cons position rest ih =>
    have hpos : ∀ q ∈ passports, position < q.length :=
      h position (List.mem_cons_self position rest)
    have hrest : ∀ pos ∈ rest, ∀ q ∈ passports, pos < q.length :=
      fun pos hp => h pos (List.mem_cons_of_mem position hp)
    simp only [rule_positions, is_valid_in_position_eq rule position passports hpos,
      ih hrest, List.filter_cons]
    cases hb : passports.all (fun q => rule.valid (q.getD position 0)) with
    | true => simp
    | false => simp

theorem find_all_valid_positions_eq (rules : List Rule)
    (passports : List (List Int))
    (h : ∀ q ∈ passports, rules.length ≤ q.length) :
    find_all_valid_positions rules passports =
      some (rules.map
        (fun rule => candidate_positions rule passports rules.length)) := by
  have haux : ∀ rs : List Rule,
      find_all_valid_positions_aux rules.length passports rs =
        some (rs.map
          (fun rule => candidate_positions rule passports rules.length)) := by
    intro rs
    induction rs with
    | nil => rfl
    | cons rule rest ih =>
      have hl : ∀ pos ∈ List.range rules.length, ∀ q ∈ passports,
          pos < q.length := fun pos hp q hq =>
        Nat.lt_of_lt_of_le (List.mem_range.mp hp) (h q hq)
      simp only [find_all_valid_positions_aux,
        rule_positions_eq rule passports (List.range rules.length) hl, ih,
        List.map_cons]
      rfl
  exact haux rules

/-- Two maps over the same list are `Forall₂`-related pointwise. -/
theorem forall₂_map_of_forall {α β : Type} (l : List α) (f g : α → β)
    (R : β → β → Prop) (h : ∀ x ∈ l, R (f x) (g x)) :
    List.Forall₂ R (l.map f) (l.map g) := by
  induction l with
  | nil => exact List.Forall₂.nil
  | cons x xs ih =>
    exact List.Forall₂.cons (h x (List.mem_cons_self x xs))
      (ih (fun y hy => h y (List.mem_cons_of_mem x hy)))

/-- C8 (amended) -- when every record of the batch is at least as long as
the rule list, every index probed by the position-candidate computation is
in bounds: neither `is_valid_in_position` at a probed position nor
`find_all_valid_positions` as a whole aborts. -/
theorem find_all_valid_positions_no_panic (rules : List Rule)
    (passports : List (List Int))
    (h : ∀ q ∈ passports, rules.length ≤ q.length) :
    (∀ rule : Rule, ∀ position < rules.length,
        (is_valid_in_position rule position passports).isSome) ∧
      (find_all_valid_positions rules passports).isSome := by
  constructor
  · intro rule position hpos
    rw [is_valid_in_position_eq rule position passports
      (fun q hq => Nat.lt_of_lt_of_le hpos (h q hq))]
    rfl
  · rw [find_all_valid_positions_eq rules passports h]
    rfl

/-- C8 witness input. -/
def c8Rules : List Rule := [⟨"a", (0, 1), (4, 5)⟩]

/-- C8 witness batch. -/
def c8Passports : List (List Int) := [[5], [3]]

theorem find_all_valid_positions_no_panic_witness :
    (∀ q ∈ c8Passports, c8Rules.length ≤ q.length) ∧
      ((∀ rule : Rule, ∀ position < c8Rules.length,
          (is_valid_in_position rule position c8Passports).isSome) ∧
        (find_all_valid_positions c8Rules c8Passports).isSome) :=
  ⟨by decide, find_all_valid_positions_no_panic c8Rules c8Passports (by decide)⟩

/-- C8 counterexample batch: the second record is shorter than the rule
list, yet nothing aborts because the scan short-circuits on the first
record, whose value `5` satisfies no range of the rule. -/
def c8CexPassports : List (List Int) := [[5], []]

/-- C8 counterexample rule set: `5` satisfies neither range. -/
def c8CexRules : List Rule := [⟨"a", (0, 1), (0, 1)⟩]

/-- C8 counterexample -- a record shorter than the rule list does not force
an abort: the candidate computation still returns a result. -/
theorem find_all_valid_positions_short_no_abort :
    (∃ q ∈ c8CexPassports, q.length < c8CexRules.length) ∧
      is_valid_in_position (Rule.mk "a" (0, 1) (0, 1)) 0 c8CexPassports =
        some false ∧
      find_all_valid_positions c8CexRules c8CexPassports = some [[]] := by
  refine ⟨⟨[], by decide, by decide⟩, by decide, by decide⟩

/-- C3 -- position-candidate computation is monotone in the batch: over
well-formed batches (each record at least as long as the rule list, the
batch invariant of the data model), removing one record keeps both
computations defined and can only grow or preserve each rule's candidate
list, never shrink it. -/
theorem find_all_valid_positions_monotone (rules : List Rule)
    (l1 l2 : List (List Int)) (p : List Int)
    (h : ∀ q ∈ l1 ++ p :: l2, rules.length ≤ q.length) :
    ∃ full rem,
      find_all_valid_positions rules (l1 ++ p :: l2) = some full ∧
        find_all_valid_positions rules (l1 ++ l2) = some rem ∧
        List.Forall₂ (fun a b => a ⊆ b) full rem := by
  have hsub : ∀ q ∈ l1 ++ l2, q ∈ l1 ++ p :: l2 := by
    intro q hq
    rcases List.mem_append.mp hq with hql | hqr
    · exact List.mem_append.mpr (Or.inl hql)
    · exact List.mem_append.mpr (Or.inr (List.mem_cons_of_mem p hqr))
  have h2 : ∀ q ∈ l1 ++ l2, rules.length ≤ q.length := fun q hq =>
    h q (hsub q hq)
  refine ⟨_, _, find_all_valid_positions_eq rules _ h,
    find_all_valid_positions_eq rules _ h2, ?_⟩
  apply forall₂_map_of_forall
  intro rule _
  intro pr hpr
  unfold candidate_positions at hpr ⊢
  rcases List.mem_map.mp hpr with ⟨position, hmem, hpr_eq⟩
  refine List.mem_map.mpr ⟨position, ?_, hpr_eq⟩
  have hfil := List.mem_filter.mp hmem
  refine List.mem_filter.mpr ⟨hfil.1, ?_⟩
  rw [List.all_eq_true] at hfil ⊢
  exact fun q hq => hfil.2 q (hsub q hq)

/-- C3 witness rule set. -/
def c3Rules : List Rule := [⟨"a", (0, 5), (10, 12)⟩]

theorem find_all_valid_positions_monotone_witness :
    (∀ q ∈ [[1]] ++ [2] :: ([] : List (List Int)), c3Rules.length ≤ q.length) ∧
      ∃ full rem,
        find_all_valid_positions c3Rules ([[1]] ++ [2] :: []) = some full ∧
          find_all_valid_positions c3Rules ([[1]] ++ []) = some rem ∧
          List.Forall₂ (fun a b => a ⊆ b) full rem :=
  ⟨by decide, find_all_valid_positions_monotone c3Rules [[1]] [] [2] (by decide)⟩

/-- C7 witness assignment. -/
def c7Assignment : List (Nat × String) := [(1, "departure x"), (0, "row")]

theorem part2_spec_witness :
    (∀ pr ∈ c7Assignment, pr.1 < ([3, 4] : List Int).length) ∧
      (part2 [3, 4] c7Assignment =
          some (((c7Assignment.filter
            (fun pr => pr.2.startsWith "departure")).map
            (fun pr => ([3, 4] : List Int).getD pr.1 0)).prod) ∧
        ((∀ pr ∈ c7Assignment, ¬ pr.2.startsWith "departure") →
          part2 [3, 4] c7Assignment = some 1)) :=
  ⟨by decide, part2_spec [3, 4] c7Assignment (by decide)⟩

/-! ## The elimination solver (`determine_field_positions`) -/

/-- The length-ascending ordering used by
`sort_unstable_by(|a, b| a.len().cmp(&b.len()))`. -/
def lenRel (a b : List (Nat × String)) : Prop := a.length ≤ b.length

instance : DecidableRel lenRel := fun a b => Nat.decLe a.length b.length

/-- The candidate lists sorted ascending by length.  `sort_unstable_by`
returns an unspecified length-sorted permutation of its input; insertion
sort by length is one such permutation and models it (every theorem below
uses only that it is a permutation, and the abort condition of
`determine_field_positions` depends only on the multiset of lengths). -/
def sorted_by_len (all_positions : List (List (Nat × String))) :
    List (List (Nat × String)) :=
  List.insertionSort lenRel all_positions

/-- The elimination loop of `determine_field_positions`: the `i`-th sorted
list must have length `i+1` (otherwise `panic!("too big!")`, modelled by
`none`); the first of its candidates whose position is not yet taken, if
any, is pushed onto the result and its position onto `taken`. -/
def eliminate (i : Nat) (taken : List Nat) :
    List (List (Nat × String)) → Option (List (Nat × String))
  | [] => some []
  | positions :: rest =>
    if positions.length = i + 1 then
      match positions.find? (fun pr => !taken.contains pr.1) with
      | some pr =>
        (eliminate (i + 1) (pr.1 :: taken) rest).map (fun out => pr :: out)
      | none => eliminate (i + 1) taken rest
    else none

/-- `determine_field_positions`: sort the candidate lists by length and run
the elimination loop. -/
def determine_field_positions (all_positions : List (List (Nat × String))) :
    Option (List (Nat × String)) :=
  eliminate 0 [] (sorted_by_len all_positions)

/-- Whether `eliminate` aborts depends only on the lengths of the lists:
it returns `none` exactly when some list's length breaks the `i+1` rule. -/
theorem eliminate_eq_none_iff (ls : List (List (Nat × String))) :
    ∀ (i : Nat) (taken : List Nat),
      eliminate i taken ls = none ↔
        ∃ j, ∃ h : j < ls.length, (ls.get ⟨j, h⟩).length ≠ i + j + 1 := by
  induction ls with
  | nil =>
    intro i taken
    simp [eliminate]
  | cons positions rest ih =>
    intro i taken
    simp only [eliminate]
    by_cases hlen : positions.length = i + 1
    · rw [if_pos hlen]
      have hstep : (match positions.find? (fun pr => !taken.contains pr.1) with
          | some pr =>
            (eliminate (i + 1) (pr.1 :: taken) rest).map (fun out => pr :: out)
          | none => eliminate (i + 1) taken rest) = none ↔
          ∃ j, ∃ h : j < rest.length,
            (rest.get ⟨j, h⟩).length ≠ (i + 1) + j + 1 := by
        cases positions.find? (fun pr => !taken.contains pr.1) with
        | none => exact ih (i + 1) taken
        | some pr =>
          show Option.map (fun out => pr :: out)
              (eliminate (i + 1) (pr.1 :: taken) rest) = none ↔ _
          rw [Option.map_eq_none']
          exact ih (i + 1) (pr.1 :: taken)
      rw [hstep]
      constructor
      · rintro ⟨j, hj, hne⟩
        refine ⟨j + 1, Nat.succ_lt_succ hj, ?_⟩
        have harith : i + (j + 1) + 1 = (i + 1) + j + 1 := by omega
        rw [List.get_cons_succ, harith]
        exact hne
      · rintro ⟨j, hj, hne⟩
        cases j with
        | zero =>
          exact absurd (by simpa using hlen) (by simpa using hne)
        | succ j =>
          refine ⟨j, Nat.lt_of_succ_lt_succ hj, ?_⟩
          have harith : i + (j + 1) + 1 = (i + 1) + j + 1 := by omega
          rw [List.get_cons_succ, harith] at hne
          exact hne
    · rw [if_neg hlen]
      refine iff_of_true rfl ⟨0, Nat.succ_pos _, ?_⟩
      simpa using hlen

/-- C2 -- `determine_field_positions` aborts (`panic!("too big!")`) exactly
when, after sorting the candidate lists ascending by length, some list at
sorted index `j` has length different from `j+1`; no fallback is attempted
and no result is produced (`none`). -/
theorem determine_field_positions_none_iff
    (all_positions : List (List (Nat × String))) :
    determine_field_positions all_positions = none ↔
      ∃ j, ∃ h : j < (sorted_by_len all_positions).length,
        ((sorted_by_len all_positions).get ⟨j, h⟩).length ≠ j + 1 := by
  unfold determine_field_positions
  rw [eliminate_eq_none_iff]
  simp [Nat.zero_add]

/-- Pigeonhole for the inner loop: a list of pairs with more elements than
`taken` and pairwise-distinct first components has a pair whose first
component is not taken. -/
theorem exists_fst_not_taken (l : List (Nat × String)) (taken : List Nat)
    (hnd : (l.map Prod.fst).Nodup) (hlen : taken.length < l.length) :
    ∃ pr ∈ l, ¬ pr.1 ∈ taken := by
  by_contra hall
  push_neg at hall
  have hsub : (l.map Prod.fst) ⊆ taken := by
    intro x hx
    rcases List.mem_map.mp hx with ⟨pr, hpr, rfl⟩
    exact hall pr hpr
  have h1 : (l.map Prod.fst).toFinset.card = l.length := by
    rw [List.toFinset_card_of_nodup hnd, List.length_map]
  have h2 : (l.map Prod.fst).toFinset ⊆ taken.toFinset := by
    intro x hx
    rw [List.mem_toFinset] at hx ⊢
    exact hsub hx
  have h3 := Finset.card_le_card h2
  have h4 : taken.toFinset.card ≤ taken.length := List.toFinset_card_le taken
  omega

/-- An element on the left of a membership `Forall₂` lies in some list on
the right. -/
theorem forall₂_mem_left {α β : Type} {R : α → β → Prop}
    {l1 : List α} {l2 : List β} (h : List.Forall₂ R l1 l2) :
    ∀ a ∈ l1, ∃ b ∈ l2, R a b := by
  induction h with
  | nil => intro a ha; cases ha
  | cons hr _ ih =>
    intro a ha
    rcases List.mem_cons.mp ha with rfl | ha
    · exact ⟨_, List.mem_cons_self _ _, hr⟩
    · rcases ih a ha with ⟨b, hb, hab⟩
      exact ⟨b, List.mem_cons_of_mem _ hb, hab⟩

/-- Every list on the right of a membership `Forall₂` receives some element
of the left. -/
theorem forall₂_mem_right {α β : Type} {R : α → β → Prop}
    {l1 : List α} {l2 : List β} (h : List.Forall₂ R l1 l2) :
    ∀ b ∈ l2, ∃ a ∈ l1, R a b := by
  induction h with
  | nil => intro b hb; cases hb
  | cons hr _ ih =>
    intro b hb
    rcases List.mem_cons.mp hb with rfl | hb
    · exact ⟨_, List.mem_cons_self _ _, hr⟩
    · rcases ih b hb with ⟨a, ha, hab⟩
      exact ⟨a, List.mem_cons_of_mem _ ha, hab⟩

/-- Elements picked one from each of pairwise "name-disjoint" lists have
pairwise distinct names. -/
theorem pairwise_ne_of_forall₂ {l1 : List (Nat × String)}
    {l2 : List (List (Nat × String))}
    (hf : List.Forall₂ (fun pr l => pr ∈ l) l1 l2)
    (hp : l2.Pairwise (fun l l2 => ∀ pr ∈ l, ∀ pr2 ∈ l2, pr.2 ≠ pr2.2)) :
    l1.Pairwise (fun pr pr2 => pr.2 ≠ pr2.2) := by
  induction hf with
  | nil => exact List.Pairwise.nil
  | cons hr hf2 ih =>
    rcases List.pairwise_cons.mp hp with ⟨hd, hp2⟩
    refine List.Pairwise.cons ?_ (ih hp2)
    intro pr2 hpr2
    rcases forall₂_mem_left hf2 pr2 hpr2 with ⟨l2, hl2, hmem⟩
    exact hd l2 hl2 _ hr pr2 hmem

/-- The elimination loop, on lists of pairwise-distinct positions, assigns
one pair out of each list and never repeats a position already taken. -/
theorem eliminate_spec (ls : List (List (Nat × String))) :
    ∀ (i : Nat) (taken : List Nat) (out : List (Nat × String)),
      eliminate i taken ls = some out →
      (∀ l ∈ ls, (l.map Prod.fst).Nodup) →
      taken.length = i → taken.Nodup →
      out.length = ls.length ∧
        List.Forall₂ (fun pr l => pr ∈ l) out ls ∧
        (taken ++ out.map Prod.fst).Nodup := by
  induction ls with
  | nil =>
    intro i taken out hout _ _ hnd
    have : out = [] := by
      have := hout.symm
      simpa [eliminate] using this
    subst this
    exact ⟨rfl, List.Forall₂.nil, by simpa using hnd⟩
  | cons positions rest ih =>
    intro i taken out hout hnodup hlen hnd
    simp only [eliminate] at hout
    by_cases hcheck : positions.length = i + 1
    · rw [if_pos hcheck] at hout
      have hex : ∃ pr ∈ positions, ¬ pr.1 ∈ taken :=
        exists_fst_not_taken positions taken
          (hnodup positions (List.mem_cons_self _ _)) (by omega)
      have hfind : (positions.find? (fun pr => !taken.contains pr.1)).isSome := by
        rw [List.find?_isSome]
        rcases hex with ⟨pr, hpr, hnm⟩
        exact ⟨pr, hpr, by simpa using hnm⟩
      obtain ⟨pr, hfind_eq⟩ := Option.isSome_iff_exists.mp hfind
      rw [hfind_eq] at hout
      have hprmem : pr ∈ positions := List.mem_of_find?_eq_some hfind_eq
      have hprtaken : ¬ pr.1 ∈ taken := by
        have := List.find?_some hfind_eq
        simpa using this
      obtain ⟨out2, hsome, hcons⟩ := Option.map_eq_some'.mp hout
      obtain ⟨hl2, hf2, hn2⟩ := ih (i + 1) (pr.1 :: taken) out2 hsome
        (fun l hl => hnodup l (List.mem_cons_of_mem _ hl))
        (by simp [hlen]) (List.nodup_cons.mpr ⟨hprtaken, hnd⟩)
      subst hcons
      refine ⟨by simp [hl2], List.Forall₂.cons hprmem hf2, ?_⟩
      have hperm : (taken ++ (pr :: out2).map Prod.fst).Perm
          ((pr.1 :: taken) ++ out2.map Prod.fst) := by
        simp only [List.map_cons, List.cons_append]
        exact List.perm_middle
      exact hperm.nodup_iff.mpr hn2
    · rw [if_neg hcheck] at hout
      cases hout

/-- C1 -- on candidate-computation output for N rules (per-list distinct
positions below N, a single name per list, distinct names across lists),
a non-aborting `determine_field_positions` is a true bijection: N pairs,
the positions are exactly `0..N-1` each once, and each rule's name is used
exactly once. -/
theorem determine_field_positions_bijection
    (all_positions : List (List (Nat × String)))
    (out : List (Nat × String))
    (hnodup : ∀ l ∈ all_positions, (l.map Prod.fst).Nodup)
    (hbound : ∀ l ∈ all_positions, ∀ pr ∈ l, pr.1 < all_positions.length)
    (hconst : ∀ l ∈ all_positions, ∀ pr ∈ l, ∀ pr2 ∈ l, pr.2 = pr2.2)
    (hdist : all_positions.Pairwise
      (fun l l2 => ∀ pr ∈ l, ∀ pr2 ∈ l2, pr.2 ≠ pr2.2))
    (hout : determine_field_positions all_positions = some out) :
    out.length = all_positions.length ∧
      (out.map Prod.fst).Perm (List.range all_positions.length) ∧
      (out.map Prod.snd).Nodup ∧
      ∀ name : String, name ∈ out.map Prod.snd ↔
        ∃ l ∈ all_positions, ∃ pr ∈ l, pr.2 = name := by
  have hperm : (sorted_by_len all_positions).Perm all_positions :=
    List.perm_insertionSort lenRel all_positions
  have hsub : ∀ l ∈ sorted_by_len all_positions, l ∈ all_positions :=
    fun l hl => hperm.subset hl
  obtain ⟨hl, hf, hn⟩ := eliminate_spec (sorted_by_len all_positions) 0 [] out
    hout (fun l hl2 => hnodup l (hsub l hl2)) rfl List.nodup_nil
  have hlen_out : out.length = all_positions.length := by
    rw [hl]
    exact hperm.length_eq
  have hfst_nd : (out.map Prod.fst).Nodup := by simpa using hn
  have hfst_sub : (out.map Prod.fst) ⊆ List.range all_positions.length := by
    intro x hx
    rcases List.mem_map.mp hx with ⟨pr, hpr, rfl⟩
    rcases forall₂_mem_left hf pr hpr with ⟨l, hlmem, hprl⟩
    exact List.mem_range.mpr (hbound l (hsub l hlmem) pr hprl)
  have hperm_range :
      (out.map Prod.fst).Perm (List.range all_positions.length) := by
    refine (hfst_nd.subperm hfst_sub).perm_of_length_le ?_
    rw [List.length_range, List.length_map, hlen_out]
  have hpair_sorted : (sorted_by_len all_positions).Pairwise
      (fun l l2 => ∀ pr ∈ l, ∀ pr2 ∈ l2, pr.2 ≠ pr2.2) := by
    refine (hperm.pairwise_iff
      (fun hxy pr hpr pr2 hpr2 => (hxy pr2 hpr2 pr hpr).symm)).mpr hdist
  have hpair_out := pairwise_ne_of_forall₂ hf hpair_sorted
  have hsnd_nd : (out.map Prod.snd).Nodup := by
    show (out.map Prod.snd).Pairwise (· ≠ ·)
    exact List.pairwise_map.mpr hpair_out
  refine ⟨hlen_out, hperm_range, hsnd_nd, ?_⟩
  intro name
  constructor
  · intro hname
    rcases List.mem_map.mp hname with ⟨pr, hpr, rfl⟩
    rcases forall₂_mem_left hf pr hpr with ⟨l, hlmem, hprl⟩
    exact ⟨l, hsub l hlmem, pr, hprl, rfl⟩
  · rintro ⟨l, hlmem, pr0, hpr0, hname⟩
    have hlmem2 : l ∈ sorted_by_len all_positions := hperm.mem_iff.mpr hlmem
    rcases forall₂_mem_right hf l hlmem2 with ⟨pr, hpr, hprl⟩
    have heqn : pr.2 = pr0.2 := hconst l hlmem pr hprl pr0 hpr0
    exact List.mem_map.mpr ⟨pr, hpr, by rw [heqn, hname]⟩

/-- C1 witness input: candidate lists of two rules named "a" and "b". -/
def c1Input : List (List (Nat × String)) := [[(0, "a")], [(0, "b"), (1, "b")]]

theorem determine_field_positions_bijection_witness :
    (determine_field_positions c1Input = some [(0, "a"), (1, "b")]) ∧
      ([((0 : Nat), "a"), (1, "b")].length = c1Input.length ∧
        ([((0 : Nat), "a"), (1, "b")].map Prod.fst).Perm
          (List.range c1Input.length) ∧
        ([((0 : Nat), "a"), (1, "b")].map Prod.snd).Nodup ∧
        ∀ name : String,
          name ∈ [((0 : Nat), "a"), (1, "b")].map Prod.snd ↔
            ∃ l ∈ c1Input, ∃ pr ∈ l, pr.2 = name) :=
  ⟨by decide,
    determine_field_positions_bijection c1Input [(0, "a"), (1, "b")]
      (by decide) (by decide) (by decide) (by decide) (by decide)⟩

/-! ## Parsing (`read_rules`, `read_passports`)

The line iterator is modelled as a `List String`; each reader returns the
parsed items together with the lines left in the iterator.  A Rust
`for line in lines` loop that `break`s has already pulled the offending
line out of the iterator, so that line is gone from the remainder. -/

/-- ASCII model of the regex class `\w` (word character). -/
def isWordChar (c : Char) : Bool := c.isAlphanum || c = '_'

/-- The class `[\w\s]` of the rule-name capture. -/
def isNameChar (c : Char) : Bool := isWordChar c || c.isWhitespace

/-- Numeric value of a digit run (most significant digit first). -/
def digitsToNat (ds : List Char) : Nat :=
  ds.foldl (fun acc c => acc * 10 + (c.toNat - 48)) 0

/-- `str::parse::<i64>` on a digit run: fails (and the caller's `unwrap`
panics) when the value exceeds `i64::MAX`. -/
def parseI64 (n : Nat) : Option Int :=
  if n < 2 ^ 63 then some (n : Int) else none

/-- The captures of `RULE_REGEX`, the pattern
`[\w\s]+: \d+-\d+ or \d+-\d+` anchored at the end of the line by `$`.
Because each `\d+` run is flanked by mandatory non-digit characters and
the tail is rigid, a match's extent is unique and can be read off from the
right end of the line; leftmost-first matching makes the name capture the
longest `[\w\s]` run ending just before the `: `.  Returns
`(name, range_1_low, range_1_high, range_2_low, range_2_high)`. -/
def ruleCaptures (line : String) : Option (String × Nat × Nat × Nat × Nat) :=
  let r := line.data.reverse
  let d4 := r.takeWhile Char.isDigit
  if d4.isEmpty then none else
  match r.dropWhile Char.isDigit with
  | '-' :: r2 =>
    let d3 := r2.takeWhile Char.isDigit
    if d3.isEmpty then none else
    match r2.dropWhile Char.isDigit with
    | ' ' :: 'r' :: 'o' :: ' ' :: r4 =>
      let d2 := r4.takeWhile Char.isDigit
      if d2.isEmpty then none else
      match r4.dropWhile Char.isDigit with
      | '-' :: r6 =>
        let d1 := r6.takeWhile Char.isDigit
        if d1.isEmpty then none else
        match r6.dropWhile Char.isDigit with
        | ' ' :: ':' :: r8 =>
          let nm := r8.takeWhile isNameChar
          if nm.isEmpty then none
          else some (String.mk nm.reverse, digitsToNat d1.reverse,
            digitsToNat d2.reverse, digitsToNat d3.reverse,
            digitsToNat d4.reverse)
        | _ => none
      | _ => none
    | _ => none
  | _ => none

/-- Build a `Rule` from the captured name and numbers, `unwrap`ping the
four `parse::<i64>` calls in source order. -/
def mkRule (name : String) (a b c d : Nat) : Option Rule := do
  let r1l ← parseI64 a
  let r1h ← parseI64 b
  let r2l ← parseI64 c
  let r2h ← parseI64 d
  pure ⟨name, (r1l, r1h), (r2l, r2h)⟩

/-- Parse one matching rule line. -/
def parseRuleLine (line : String) : Option Rule :=
  match ruleCaptures line with
  | some (name, a, b, c, d) => mkRule name a b c d
  | none => none

/-- `read_rules`: the `for line in lines` loop pushes a rule per matching
line and `break`s at the first non-matching line, which it has already
consumed; a failed numeric `unwrap` is `none`. -/
def read_rules : List String → Option (List Rule × List String)
  | [] => some ([], [])
  | line :: rest =>
    match ruleCaptures line with
    | some (name, a, b, c, d) =>
      match mkRule name a b c d with
      | none => none
      | some rule =>
        match read_rules rest with
        | none => none
        | some (rules, rem) => some (rule :: rules, rem)
    | none => some ([], rest)

/-- The number of leading lines matching `RULE_REGEX`. -/
def rulePrefixLen (lines : List String) : Nat :=
  (lines.takeWhile (fun l => (ruleCaptures l).isSome)).length

/-- Fuelled scan of `FIELD_REGEX` = `\d+,?` over a line
(`captures_iter`): each match greedily takes a maximal digit run and then
an optional comma; the scan resumes after the consumed comma.  The fuel
only serves structural recursion; `fieldRuns` supplies enough of it. -/
def fieldRunsF : Nat → List Char → List (List Char)
  | 0, _ => []
  | _, [] => []
  | fuel + 1, c :: cs =>
    if c.isDigit then
      (c :: cs.takeWhile Char.isDigit) ::
        fieldRunsF fuel (if (cs.dropWhile Char.isDigit).head? = some ','
          then (cs.dropWhile Char.isDigit).tail
          else cs.dropWhile Char.isDigit)
    else fieldRunsF fuel cs

/-- The successive matches of `FIELD_REGEX` over a line. -/
def fieldRuns (cs : List Char) : List (List Char) := fieldRunsF cs.length cs

/-- Fuelled computation of the maximal digit runs of a line. -/
def digitRunsF : Nat → List Char → List (List Char)
  | 0, _ => []
  | _, [] => []
  | fuel + 1, c :: cs =>
    if c.isDigit then
      (c :: cs.takeWhile Char.isDigit) :: digitRunsF fuel (cs.dropWhile Char.isDigit)
    else digitRunsF fuel cs

/-- The maximal digit runs of a line, in order (the spec-side reading of
the record fields: separators are irrelevant). -/
def digitRuns (cs : List Char) : List (List Char) := digitRunsF cs.length cs

/-- Parse every digit run of a line (`unwrap` of `parse::<i64>` per run). -/
def parseRuns : List (List Char) → Option (List Int)
  | [] => some []
  | run :: rest =>
    match parseI64 (digitsToNat run) with
    | none => none
    | some v => (parseRuns rest).map (fun vs => v :: vs)

/-- The record-reading loop of `read_passports`: a line with at least one
field match becomes a record; the first line without one stops the loop
(already consumed). -/
def read_passports_loop : List String → Option (List (List Int) × List String)
  | [] => some ([], [])
  | line :: rest =>
    if (fieldRuns line.data).isEmpty then some ([], rest)
    else
      match parseRuns (fieldRuns line.data) with
      | none => none
      | some vals =>
        match read_passports_loop rest with
        | none => none
        | some (ps, rem) => some (vals :: ps, rem)

/-- `read_passports`: unconditionally skip one header line
(`lines.next()`), then read records until a line without digits. -/
def read_passports (lines : List String) :
    Option (List (List Int) × List String) :=
  read_passports_loop (lines.drop 1)

theorem digitRunsF_fuel_irrel :
    ∀ fuel fuel2 (cs : List Char), cs.length ≤ fuel → cs.length ≤ fuel2 →
      digitRunsF fuel cs = digitRunsF fuel2 cs := by
  intro fuel
  induction fuel with
  | zero =>
    intro fuel2 cs h1 _
    have hnil : cs = [] := List.length_eq_zero.mp (Nat.le_zero.mp h1)
    subst hnil
    cases fuel2 <;> rfl
  | succ n ih =>
    intro fuel2 cs h1 h2
    cases cs with
    | nil => cases fuel2 <;> rfl
    | cons c cs2 =>
      cases fuel2 with
      | zero => simp at h2
      | succ m =>
        simp only [digitRunsF]
        have hlt : (cs2.dropWhile Char.isDigit).length ≤ cs2.length :=
          (List.dropWhile_sublist Char.isDigit).length_le
        simp only [List.length_cons] at h1 h2
        by_cases hd : c.isDigit = true
        · rw [if_pos hd, if_pos hd, ih m _ (by omega) (by omega)]
        · rw [if_neg hd, if_neg hd, ih m cs2 (by omega) (by omega)]

theorem fieldRunsF_eq_digitRunsF :
    ∀ fuel (cs : List Char), cs.length ≤ fuel →
      fieldRunsF fuel cs = digitRunsF fuel cs := by
  intro fuel
  induction fuel with
  | zero =>
    intro cs h1
    have hnil : cs = [] := List.length_eq_zero.mp (Nat.le_zero.mp h1)
    subst hnil
    rfl
  | succ n ih =>
    intro cs h1
    cases cs with
    | nil => rfl
    | cons c cs2 =>
      simp only [fieldRunsF, digitRunsF]
      have hlt : (cs2.dropWhile Char.isDigit).length ≤ cs2.length :=
        (List.dropWhile_sublist Char.isDigit).length_le
      simp only [List.length_cons] at h1
      by_cases hd : c.isDigit = true
      · rw [if_pos hd, if_pos hd]
        congr 1
        by_cases hc : (cs2.dropWhile Char.isDigit).head? = some ','
        · rw [if_pos hc]
          obtain ⟨t, ht⟩ : ∃ t, cs2.dropWhile Char.isDigit = ',' :: t := by
            cases he : cs2.dropWhile Char.isDigit with
            | nil => rw [he] at hc; simp at hc
            | cons x xs =>
              rw [he] at hc
              simp only [List.head?_cons, Option.some.injEq] at hc
              exact ⟨xs, by rw [hc]⟩
          have htlen : t.length + 1 ≤ cs2.length := by
            have := hlt
            rw [ht] at this
            simpa using this
          rw [ht]
          show fieldRunsF n t = digitRunsF n (',' :: t)
          cases n with
          | zero => omega
          | succ m =>
            have hcomma : (',' : Char).isDigit = false := by decide
            simp only [digitRunsF, hcomma, Bool.false_eq_true, if_false]
            rw [ih t (by omega)]
            exact digitRunsF_fuel_irrel _ _ t (by omega) (by omega)
        · rw [if_neg hc]
          exact ih _ (by omega)
      · rw [if_neg hd, if_neg hd]
        exact ih cs2 (by omega)

/-- The comma handling of `FIELD_REGEX` is invisible: the field matches of
a line are exactly its maximal digit runs, whatever separates them. -/
theorem fieldRuns_eq_digitRuns (cs : List Char) : fieldRuns cs = digitRuns cs :=
  fieldRunsF_eq_digitRunsF cs.length cs (Nat.le_refl _)

theorem digitRunsF_eq_nil_iff :
    ∀ fuel (cs : List Char), cs.length ≤ fuel →
      (digitRunsF fuel cs = [] ↔ cs.any Char.isDigit = false) := by
  intro fuel
  induction fuel with
  | zero =>
    intro cs h1
    have hnil : cs = [] := List.length_eq_zero.mp (Nat.le_zero.mp h1)
    subst hnil
    simp [digitRunsF]
  | succ n ih =>
    intro cs h1
    cases cs with
    | nil => simp [digitRunsF]
    | cons c cs2 =>
      simp only [List.length_cons] at h1
      by_cases hd : c.isDigit = true
      · simp [digitRunsF, hd]
      · simp only [digitRunsF, hd, Bool.false_eq_true, if_false,
          List.any_cons]
        rw [ih cs2 (by omega)]
        simp [hd]

/-- A line has a field match exactly when it contains a digit. -/
theorem fieldRuns_eq_nil_iff (cs : List Char) :
    fieldRuns cs = [] ↔ cs.any Char.isDigit = false := by
  rw [fieldRuns_eq_digitRuns]
  exact digitRunsF_eq_nil_iff cs.length cs (Nat.le_refl _)

/-- C6 (amended) -- `read_rules` parses exactly the leading lines matching
the rule pattern, one rule per line in order, and stops at the first
non-matching line; but the `for` loop has already pulled that line from
the iterator, so it is consumed and discarded rather than left for the
next stage. -/
theorem read_rules_consumes :
    ∀ (lines : List String) (rules : List Rule) (rest : List String),
      read_rules lines = some (rules, rest) →
      List.Forall₂ (fun l rule => parseRuleLine l = some rule)
          (lines.take (rulePrefixLen lines)) rules ∧
        rest = lines.drop (rulePrefixLen lines + 1) := by
  intro lines
  induction lines with
  | nil =>
    intro rules rest hout
    have hpair := Option.some.inj hout
    injection hpair with h1 h2
    subst h1
    subst h2
    exact ⟨List.Forall₂.nil, rfl⟩
  | cons line rest0 ih =>
    intro rules rest hout
    simp only [read_rules] at hout
    cases hcap : ruleCaptures line with
    | none =>
      rw [hcap] at hout
      have hpair := Option.some.inj hout
      injection hpair with h1 h2
      subst h1
      subst h2
      have hk : rulePrefixLen (line :: rest0) = 0 := by
        simp [rulePrefixLen, List.takeWhile_cons, hcap]
      rw [hk]
      exact ⟨List.Forall₂.nil, rfl⟩
    | some caps =>
      obtain ⟨name, a, b, c, d⟩ := caps
      rw [hcap] at hout
      have hout2 : (match mkRule name a b c d with
          | none => none
          | some rule =>
            match read_rules rest0 with
            | none => none
            | some (rules2, rem) => some (rule :: rules2, rem)) =
          some (rules, rest) := hout
      cases hmk : mkRule name a b c d with
      | none =>
        rw [hmk] at hout2
        exact Option.noConfusion hout2
      | some rule =>
        rw [hmk] at hout2
        cases hrec : read_rules rest0 with
        | none =>
          rw [hrec] at hout2
          exact Option.noConfusion hout2
        | some pair =>
          obtain ⟨rules0, rem0⟩ := pair
          rw [hrec] at hout2
          have hpair := Option.some.inj hout2
          injection hpair with h1 h2
          subst h1
          subst h2
          have hk : rulePrefixLen (line :: rest0) = rulePrefixLen rest0 + 1 := by
            simp [rulePrefixLen, List.takeWhile_cons, hcap]
          obtain ⟨hf, hr⟩ := ih rules0 rem0 hrec
          rw [hk]
          constructor
          · rw [List.take_succ_cons]
            refine List.Forall₂.cons ?_ hf
            simp [parseRuleLine, hcap, hmk]
          · rw [List.drop_succ_cons]
            exact hr

/-- C6 witness input: one matching rule line, a blank separator, a line
for the next stage. -/
def c6Lines : List String := ["a: 1-2 or 3-4", "", "next"]

theorem read_rules_consumes_witness :
    read_rules c6Lines = some ([⟨"a", (1, 2), (3, 4)⟩], ["next"]) ∧
      (List.Forall₂ (fun l rule => parseRuleLine l = some rule)
          (c6Lines.take (rulePrefixLen c6Lines)) [⟨"a", (1, 2), (3, 4)⟩] ∧
        ["next"] = c6Lines.drop (rulePrefixLen c6Lines + 1)) :=
  ⟨by decide,
    read_rules_consumes c6Lines [⟨"a", (1, 2), (3, 4)⟩] ["next"] (by decide)⟩

/-- C6 counterexample -- the first non-matching line is not left for the
next stage: on `["", "x"]` (no matching prefix) the claim predicts the
remainder `["", "x"]`, but the loop consumes the blank line and leaves
only `["x"]`. -/
theorem read_rules_sentinel_consumed :
    read_rules ["", "x"] = some ([], ["x"]) ∧
      read_rules ["", "x"] ≠ some ([], ["", "x"]) :=
  ⟨by decide, by decide⟩

/-- The record-reading loop consumes the leading lines that contain a
digit, one record per line, plus the first line without a digit. -/
theorem read_passports_loop_spec :
    ∀ (body : List String) (ps : List (List Int)) (rest : List String),
      read_passports_loop body = some (ps, rest) →
      List.Forall₂ (fun line record =>
          parseRuns (digitRuns line.data) = some record)
          (body.takeWhile (fun l => l.data.any Char.isDigit)) ps ∧
        rest = body.drop
          ((body.takeWhile (fun l => l.data.any Char.isDigit)).length + 1) := by
  intro body
  induction body with
  | nil =>
    intro ps rest hout
    have hpair := Option.some.inj hout
    injection hpair with h1 h2
    subst h1
    subst h2
    exact ⟨List.Forall₂.nil, rfl⟩
  | cons line rest0 ih =>
    intro ps rest hout
    simp only [read_passports_loop] at hout
    by_cases hemp : (fieldRuns line.data).isEmpty = true
    · rw [if_pos hemp] at hout
      have hpair := Option.some.inj hout
      injection hpair with h1 h2
      subst h1
      subst h2
      have hnd : (line.data.any Char.isDigit) = false := by
        rw [← fieldRuns_eq_nil_iff]
        exact List.isEmpty_iff.mp hemp
      rw [List.takeWhile_cons_of_neg (by simp [hnd])]
      exact ⟨List.Forall₂.nil, rfl⟩
    · rw [if_neg hemp] at hout
      cases hruns : parseRuns (fieldRuns line.data) with
      | none =>
        rw [hruns] at hout
        exact Option.noConfusion hout
      | some vals =>
        rw [hruns] at hout
        cases hrec : read_passports_loop rest0 with
        | none =>
          rw [hrec] at hout
          exact Option.noConfusion hout
        | some pair =>
          obtain ⟨ps0, rem0⟩ := pair
          rw [hrec] at hout
          have hpair := Option.some.inj hout
          injection hpair with h1 h2
          subst h1
          subst h2
          have hd : (line.data.any Char.isDigit) = true := by
            cases hv : line.data.any Char.isDigit with
            | true => rfl
            | false =>
              exact absurd (List.isEmpty_iff.mpr
                ((fieldRuns_eq_nil_iff line.data).mpr hv)) hemp
          obtain ⟨hf, hr⟩ := ih ps0 rem0 hrec
          rw [List.takeWhile_cons_of_pos (by simp [hd])]
          constructor
          · refine List.Forall₂.cons ?_ hf
            rw [← fieldRuns_eq_digitRuns]
            exact hruns
          · rw [List.length_cons, List.drop_succ_cons]
            exact hr

/-- C10 -- `read_passports` skips one header line unconditionally, then
turns every following line containing at least one digit into a record
whose fields are the maximal digit runs of the line (commas or any other
separators are irrelevant: the field matches are exactly the maximal digit
runs), and stops consuming at the first line containing no digits. -/
theorem read_passports_spec (lines : List String) (ps : List (List Int))
    (rest : List String) (hout : read_passports lines = some (ps, rest)) :
    List.Forall₂ (fun line record =>
        parseRuns (digitRuns line.data) = some record)
        ((lines.drop 1).takeWhile (fun l => l.data.any Char.isDigit)) ps ∧
      rest = (lines.drop 1).drop
        (((lines.drop 1).takeWhile
          (fun l => l.data.any Char.isDigit)).length + 1) ∧
      ∀ cs : List Char, fieldRuns cs = digitRuns cs := by
  obtain ⟨hf, hr⟩ := read_passports_loop_spec (lines.drop 1) ps rest hout
  exact ⟨hf, hr, fieldRuns_eq_digitRuns⟩

/-- C10 witness input: a header, a record line with mixed separators, a
digit-free stopper, a trailing line. -/
def c10Lines : List String := ["h", "12,3", "x", "9"]

theorem read_passports_spec_witness :
    read_passports c10Lines = some ([[12, 3]], ["9"]) ∧
      (List.Forall₂ (fun line record =>
          parseRuns (digitRuns line.data) = some record)
          ((c10Lines.drop 1).takeWhile (fun l => l.data.any Char.isDigit))
          [[12, 3]] ∧
        ["9"] = (c10Lines.drop 1).drop
          (((c10Lines.drop 1).takeWhile
            (fun l => l.data.any Char.isDigit)).length + 1) ∧
        ∀ cs : List Char, fieldRuns cs = digitRuns cs) :=
  ⟨by decide, read_passports_spec c10Lines [[12, 3]] ["9"] (by decide)⟩
